import Mathlib

/-!
# Verification of `preprocessing_exclude`

A shallow embedding of the dataset-preprocessing scripts of the
`Swingft/preprocessing_exclude` repository, together with theorems about the
claims of its specification.

Modelling conventions:

* A line of text is a `List Char`; a whole file content is also a `List Char`.
  UTF-8 byte lengths are computed per character from its Unicode code point,
  which agrees with Python's `len(line.encode('utf-8'))`.
* Python's `str.strip()` is modelled by `pyStrip`, which removes the ASCII
  whitespace characters (space, tab, newline, carriage return, vertical tab,
  form feed) from both ends.  The scripts only strip C-header text, for which
  this is exact.
* Python float arithmetic in `threshold_bytes * 0.7` / `* 1.3` is modelled by
  the exact rational comparisons `10*size ≥ 7*threshold` / `10*size ≥
  13*threshold`.  All concrete inputs used below stay away from the one
  integer where double rounding of `0.7`/`1.3` could differ from the exact
  rational comparison.
* The regular expressions of `split_large_headers.py` are translated to
  decidable predicates; each is annotated with the regex it implements.
-/

namespace SplitLargeHeaders

/-- A single line of text (with its end-of-line characters, when present). -/
abbrev Line := List Char

/-- Python `str.isspace` / the character class stripped by `str.strip()`,
restricted to ASCII whitespace. -/
def pyIsSpace (c : Char) : Bool :=
  c = ' ' || c = '\t' || c = '\n' || c = '\x0d' || c = '\x0b' || c = '\x0c'

/-- Python `s.strip()`: remove whitespace from both ends. -/
def pyStrip (l : Line) : Line :=
  ((l.dropWhile pyIsSpace).reverse.dropWhile pyIsSpace).reverse

/-- Python `s.rstrip()`: remove whitespace from the right end only. -/
def pyRStrip (l : Line) : Line :=
  (l.reverse.dropWhile pyIsSpace).reverse

/-- `not line.strip()` in Python: the line contains only whitespace. -/
def isBlankLine (l : Line) : Bool := (pyStrip l).isEmpty

/-- Number of bytes of the UTF-8 encoding of one character
(`len(c.encode('utf-8'))`). -/
def utf8Len (c : Char) : Nat :=
  if c.toNat < 0x80 then 1
  else if c.toNat < 0x800 then 2
  else if c.toNat < 0x10000 then 3
  else 4

/-- `len(s.encode('utf-8'))` for a line. -/
def byteLen (l : Line) : Nat := (l.map utf8Len).sum

/-- Does the line end in one of the given characters?  Used to translate the
regexes `.*[,\\*]$`, `.*\($`, `.*\{$` and `.*;\s*$` (after right-stripping). -/
def endsInOneOf (cs : List Char) (s : Line) : Bool :=
  match s.getLast? with
  | some c => cs.contains c
  | none => false

/-- `re.search` of one of the unsafe patterns of `is_safe_split_location`
(`split_large_headers.py`, lines 55-64), on an already-stripped line:

* `.*[,\\*]$`   — continued declaration: ends in `,`, `\` or `*`;
* `.*\($`       — open parenthesis at the end;
* `.*\{$`       — open brace at the end;
* `^\s*\*`      — first non-space character is `*` (multi-line comment body);
* `^\s*(-->|<--)` — Carbon event parameter arrow;
* `.*Parameters:\s*$`, `.*Discussion:\s*$`, `.*Result:\s*$` — doc headers. -/
def matchesUnsafePattern (s : Line) : Bool :=
  endsInOneOf [',', '\\', '*'] s ||
  endsInOneOf ['('] s ||
  endsInOneOf ['\x7b'] s ||
  (s.dropWhile pyIsSpace).take 1 = ['*'] ||
  (s.dropWhile pyIsSpace).take 3 = ['-', '-', '>'] ||
  (s.dropWhile pyIsSpace).take 3 = ['<', '-', '-'] ||
  "Parameters:".toList.isSuffixOf (pyRStrip s) ||
  "Discussion:".toList.isSuffixOf (pyRStrip s) ||
  "Result:".toList.isSuffixOf (pyRStrip s)

/-- `re.search` of one of the safe end patterns of `is_safe_split_location`
(`split_large_headers.py`, lines 76-81):

* `^\s*\*/\s*$` — the line is exactly `*/` up to surrounding whitespace;
* `^\s*#endif`  — first non-space characters are `#endif`;
* `^\s*};\s*$`  — the line is exactly `};` up to surrounding whitespace;
* `.*;\s*$`     — the line ends in `;` up to trailing whitespace. -/
def matchesSafeEndPattern (s : Line) : Bool :=
  pyStrip s = ['*', '/'] ||
  "#endif".toList.isPrefixOf (s.dropWhile pyIsSpace) ||
  pyStrip s = ['\x7d', ';'] ||
  endsInOneOf [';'] (pyRStrip s)

/-- The unused 7-line context window computed at `split_large_headers.py`
lines 50-52 (`start = max(0, line_idx-3)`, `end = min(len(lines),
line_idx+4)`).  The source computes `context_lines` but never reads it; it is
kept here to mirror the source. -/
def contextWindow (lines : List Line) (i : Nat) : List Line :=
  (List.range' (i - 3) (min lines.length (i + 4) - (i - 3))).map
    fun j => pyStrip (lines.getD j [])

/-- `is_safe_split_location(lines, line_idx)` of `split_large_headers.py`
(lines 42-90).  Returns `false` when the index is out of range or the
candidate line is not blank; rejects when one of the up to two immediately
preceding non-blank (stripped) lines matches an unsafe pattern; otherwise
accepts exactly when there is a preceding line and it matches a safe end
pattern.  (`range(max(0, line_idx-2), line_idx)` is `List.range' (i-2)
(min i 2)`.) -/
def is_safe_split_location (lines : List Line) (i : Nat) : Bool :=
  if lines.length ≤ i || !(isBlankLine (lines.getD i [])) then false
  else if (List.range' (i - 2) (min i 2)).any (fun j =>
      let p := pyStrip (lines.getD j [])
      !p.isEmpty && matchesUnsafePattern p) then false
  else if 0 < i then matchesSafeEndPattern (pyStrip (lines.getD (i - 1) []))
  else false

/-- The loop body of `find_safe_split_points` (`split_large_headers.py`,
lines 19-37), as a recursion over the remaining lines.  `all` is the full
line list, `i` the index of the first line of `rest` in `all`, and `sz` the
running `current_size` accumulator. -/
def fsspGo (all : List Line) (th mp : Nat) : List Line → Nat → Nat → List Nat
  | [], _, _ => []
  | line :: rest, i, sz =>
    let sz' := sz + byteLen line
    if 7 * th ≤ 10 * sz' && isBlankLine line then
      if is_safe_split_location all i then
        let remaining := byteLen ((all.drop (i + 1)).flatten)
        if remaining = 0 || mp ≤ remaining then
          (i + 1) :: fsspGo all th mp rest (i + 1) 0
        else fsspGo all th mp rest (i + 1) sz'
      else fsspGo all th mp rest (i + 1) sz'
    else if 13 * th ≤ 10 * sz' then
      (i + 1) :: fsspGo all th mp rest (i + 1) 0
    else fsspGo all th mp rest (i + 1) sz'

/-- `find_safe_split_points(lines, threshold_bytes, min_part_bytes)`
(`split_large_headers.py`, lines 12-39). -/
def find_safe_split_points (lines : List Line) (th mp : Nat) : List Nat :=
  fsspGo lines th mp lines 0 0

/-- One step of Python's `str.splitlines(keepends=True)`: collect characters
into `acc` (reversed) until a line boundary (`\n`, `\r\n` or `\r`) closes the
current line.  (Python also treats `\v`, `\f`, `\x1c`-`\x1e`, `\x85`,
U+2028 and U+2029 as boundaries; header files only use the three modelled
here.) -/
def splitKEAux : Line → Line → List Line
  | acc, [] => if acc.isEmpty then [] else [acc.reverse]
  | acc, '\n' :: rest => (acc.reverse ++ ['\n']) :: splitKEAux [] rest
  | acc, '\x0d' :: '\n' :: rest => (acc.reverse ++ ['\x0d', '\n']) :: splitKEAux [] rest
  | acc, '\x0d' :: rest => (acc.reverse ++ ['\x0d']) :: splitKEAux [] rest
  | acc, c :: rest => splitKEAux (c :: acc) rest

/-- `content.splitlines(keepends=True)`. -/
def splitlinesKeepends (content : Line) : List Line := splitKEAux [] content

/-- `"".join(lines[a:b])`. -/
def joinSlice (lines : List Line) (a b : Nat) : Line :=
  ((lines.drop a).take (b - a)).flatten

/-- The part-assembly loop of `split_file_into_parts`
(`split_large_headers.py`, lines 116-129): cut the lines at each split point,
keep only parts with non-whitespace content, and append the final part. -/
def buildParts (lines : List Line) : Nat → List Nat → List Line
  | start, [] =>
    if start < lines.length then
      let finalPart := (lines.drop start).flatten
      if !(pyStrip finalPart).isEmpty then [finalPart] else []
    else []
  | start, p :: ps =>
    let partContent := joinSlice lines start p
    let rest := buildParts lines p ps
    if !(pyStrip partContent).isEmpty then partContent :: rest else rest

/-- `split_file_into_parts` (`split_large_headers.py`, lines 93-131), applied
to the decoded file content.  (The encoding-fallback reading of lines 97-107
happens before this function's algorithmic part and is not modelled; the
content argument is the decoded text.) -/
def split_file_into_parts (content : Line) (th mp : Nat) : List Line :=
  let lines := splitlinesKeepends content
  let pts := find_safe_split_points lines th mp
  if pts.isEmpty then [content]
  else buildParts lines 0 pts

/-- The same cutting of `lines` at the split points, but keeping every
segment (no blank-part filtering).  Used to state what `buildParts` drops. -/
def segmentsOf (lines : List Line) : Nat → List Nat → List Line
  | start, [] =>
    if start < lines.length then [(lines.drop start).flatten] else []
  | start, p :: ps => joinSlice lines start p :: segmentsOf lines p ps

/-- Whether the loop body of `find_safe_split_points` records a split point
at line `i` when the updated accumulator is `sz'` — a direct transcription of
the two branches at `split_large_headers.py` lines 23-37.  Used to relate a
whole run of `fsspGo` to its individual steps. -/
def stepFires (all : List Line) (th mp i sz' : Nat) : Bool :=
  if 7 * th ≤ 10 * sz' && isBlankLine (all.getD i []) then
    is_safe_split_location all i &&
      (byteLen ((all.drop (i + 1)).flatten) = 0 ||
        mp ≤ byteLen ((all.drop (i + 1)).flatten))
  else 13 * th ≤ 10 * sz'

end SplitLargeHeaders

namespace PrepareHeaders

/-!
Model of `find_and_copy_headers` (`prepare_headers.py`, lines 13-106).
The destination directory is a finite association list from file name to
file content; `shutil.copy2(src, dest)` becomes prepending `(dest, content)`,
`dest_path.exists()` becomes an association-list lookup, and
`filecmp.cmp(a, b, shallow=False)` becomes content equality.
-/

/-- The destination directory: file name ↦ file content. -/
abbrev FS := List (String × String)

/-- `(dest_dir / name).exists()` / reading the file at `name`. -/
def lookupFS (fs : FS) (k : String) : Option String :=
  (fs.find? (fun e => e.1 == k)).map (fun e => e.2)

/-- One header file found by `src_dir.rglob("*.h")`: its base name, the name
of its parent directory (`""` when it sits directly in the source
directory), and its content. -/
structure HeaderFile where
  name : String
  parentName : String
  content : String

/-- The unique destination name built at `prepare_headers.py` lines 54-60. -/
def uniqueName (srcName : String) (h : HeaderFile) : String :=
  if h.parentName ≠ "" ∧ h.parentName ≠ srcName then
    srcName ++ "_" ++ h.parentName ++ "_" ++ h.name
  else srcName ++ "_" ++ h.name

/-- Split a character list at its last `.`: `some (before, dotAndAfter)`
when a dot occurs, `none` otherwise. -/
def splitAtLastDot : List Char → Option (List Char × List Char)
  | [] => none
  | c :: rest =>
    match splitAtLastDot rest with
    | some p => some (c :: p.1, p.2)
    | none => if c = '.' then some ([], '.' :: rest) else none

/-- `(Path(name).stem, Path(name).suffix)`: the extension is the part from
the last dot on, provided that dot is neither the first nor the last
character (pathlib's rule). -/
def pathSplitExt (name : String) : String × String :=
  match splitAtLastDot name.toList with
  | none => (name, "")
  | some p =>
    if p.1.isEmpty || p.2.length ≤ 1 then (name, "")
    else (String.mk p.1, String.mk p.2)

/-- The `while True` loop at `prepare_headers.py` lines 75-86, searching for
`f"{base_name}_{counter}{extension}"` that either does not exist yet
(`some (some newName)`) or exists with identical content — skip the copy
(`some none`).  The loop is given `fs.length + 1` units of fuel, which is
always enough: the candidate names are pairwise distinct, so within
`fs.length + 1` candidates one is unused (`findFreshName_fuel_sufficient`
below); the fuel-exhausted value `none` is unreachable. -/
def findFreshName (fs : FS) (srcContent base ext : String) : Nat → Nat → Option (Option String)
  | 0, _ => none
  | fuel + 1, counter =>
    let newName := base ++ "_" ++ Nat.repr counter ++ ext
    match lookupFS fs newName with
    | none => some (some newName)
    | some c =>
      if c = srcContent then some none
      else findFreshName fs srcContent base ext fuel (counter + 1)

/-- The per-file body of the copy loop (`prepare_headers.py` lines 49-95):
returns the updated destination directory. -/
def copyOneHeader (fs : FS) (srcName : String) (h : HeaderFile) : FS :=
  let uname := uniqueName srcName h
  match lookupFS fs uname with
  | none => (uname, h.content) :: fs
  | some c =>
    if c = h.content then fs
    else
      let se := pathSplitExt uname
      match findFreshName fs h.content se.1 se.2 (fs.length + 1) 1 with
      | some (some newName) => (newName, h.content) :: fs
      | some none => fs
      | none => fs

/-- `find_and_copy_headers(src_dirs, dest_dir)`: each source directory is a
pair of its name and the header files found under it; the destination starts
from the files already present. -/
def find_and_copy_headers (srcDirs : List (String × List HeaderFile)) (fs : FS) : FS :=
  srcDirs.foldl (fun acc d => d.2.foldl (fun a hf => copyOneHeader a d.1 hf) acc) fs

end PrepareHeaders

namespace VerifyJsonl

/-!
Model of `verify_jsonl_file` (`verify_jsonl.py`, lines 42-126).  The JSON
library is external, so `json.loads(line)` succeeding is an oracle
`decodeOk : String → Bool`, and `analyze_json_structure` finding issues for
the object parsed from a line is an oracle `issuesFound : String → Bool`.
-/

/-- The state of the file under verification: `missing` when
`file_path.exists()` is false, `readError` when opening/iterating raises
(the `except` at line 101), `content lines` otherwise. -/
inductive FileInput
  | missing
  | readError
  | content (lines : List String)

/-- The counters accumulated by the verification loop. -/
structure Counts where
  total : Nat
  empty : Nat
  valid : Nat
  invalid : Nat
  structIssues : Nat

/-- The `for i, line in enumerate(f)` loop (`verify_jsonl.py` lines 69-99),
including the `break` once ten invalid lines were seen. -/
def verifyLoop (detailed : Bool) (decodeOk issuesFound : String → Bool) :
    List String → Counts → Counts
  | [], st => st
  | l :: rest, st =>
    let st1 : Counts := { st with total := st.total + 1 }
    if (SplitLargeHeaders.pyStrip l.toList).isEmpty then
      verifyLoop detailed decodeOk issuesFound rest { st1 with empty := st1.empty + 1 }
    else if decodeOk l then
      let st2 : Counts := { st1 with valid := st1.valid + 1 }
      if detailed && issuesFound l then
        verifyLoop detailed decodeOk issuesFound rest
          { st2 with structIssues := st2.structIssues + 1 }
      else verifyLoop detailed decodeOk issuesFound rest st2
    else
      let st3 : Counts := { st1 with invalid := st1.invalid + 1 }
      if 10 ≤ st3.invalid then st3
      else verifyLoop detailed decodeOk issuesFound rest st3

/-- `verify_jsonl_file(file_path, detailed_analysis)`, returning the verdict
of lines 114-126. -/
def verify_jsonl_file (file : FileInput) (detailed : Bool)
    (decodeOk issuesFound : String → Bool) : Bool :=
  match file with
  | .missing => false
  | .readError => false
  | .content lines =>
    let st := verifyLoop detailed decodeOk issuesFound lines ⟨0, 0, 0, 0, 0⟩
    if st.invalid = 0 ∧ 0 < st.total then
      if st.structIssues = 0 ∨ !detailed then true else true
    else if st.total = 0 then true
    else false

end VerifyJsonl

namespace GenerateLabels

/-!
Model of `process_single_file` (`generate_labels.py`, lines 78-146).  The
Gemini API, the JSON library and the filesystem are external; they enter as
an environment of oracles, and the function's externally visible behaviour
is its returned success flag together with the list of effects (API calls
and file saves) it performs, in order.
-/

/-- `MAX_RETRIES` (`generate_labels.py` line 22). -/
def MAX_RETRIES : Nat := 3

/-- Outcome of one `GeminiHandler.ask` call: a response text, a
`GeminiBlockedError`/`GeminiResponseEmptyError`, or any other exception. -/
inductive ApiOutcome
  | ok (text : String)
  | blockedOrEmpty
  | otherError

/-- The environment of one `process_single_file` run. -/
structure Env where
  /-- `output_path.exists()` (line 87). -/
  outputExists : Bool
  /-- The decoded file content, `none` when every encoding fails (lines 91-99). -/
  readContent : Option String
  /-- Outcome of the API call made on a given attempt number. -/
  api : Nat → ApiOutcome
  /-- Whether `json.loads` succeeds on the cleaned response (line 120). -/
  jsonOk : String → Bool

/-- Externally visible effects of `process_single_file`, in order. -/
inductive Effect
  | apiAsk (attempt : Nat)
  | saveJson (content : String)
  | saveTxt (content : String)
deriving DecidableEq

/-- `if pat.isPrefixOf s then drop it` — Python `str.removeprefix`. -/
def removeIfLeading (pat s : List Char) : List Char :=
  if pat.isPrefixOf s then s.drop pat.length else s

/-- `if pat.isSuffixOf s then drop it` — Python `str.removesuffix`. -/
def removeIfTrailing (pat s : List Char) : List Char :=
  if pat.isSuffixOf s then s.take (s.length - pat.length) else s

/-- The characters of the Markdown fence tag removed at line 118
(backtick backtick backtick `json`). -/
def tickJsonTag : List Char := ['\x60', '\x60', '\x60', 'j', 's', 'o', 'n']

/-- The characters of a bare Markdown fence (three backticks). -/
def tickTag : List Char := ['\x60', '\x60', '\x60']

/-- `response_text.strip().removeprefix(...).removesuffix(...).strip()`
(line 118). -/
def cleanResponse (resp : String) : String :=
  String.mk (SplitLargeHeaders.pyStrip
    (removeIfTrailing tickTag
      (removeIfLeading tickJsonTag (SplitLargeHeaders.pyStrip resp.toList))))

/-- The `for attempt in range(MAX_RETRIES)` retry loop
(`generate_labels.py` lines 114-143); `fuel` is the number of remaining
iterations, `attempt` the current index. -/
def attemptLoop (env : Env) : Nat → Nat → Bool × List Effect
  | _, 0 => (false, [])
  | attempt, fuel + 1 =>
    match env.api attempt with
    | .ok text =>
      let clean := cleanResponse text
      if env.jsonOk clean then (true, [.apiAsk attempt, .saveJson clean])
      else (false, [.apiAsk attempt, .saveTxt text])
    | .blockedOrEmpty =>
      if attempt < MAX_RETRIES - 1 then
        let r := attemptLoop env (attempt + 1) fuel
        (r.1, .apiAsk attempt :: r.2)
      else (false, [.apiAsk attempt])
    | .otherError =>
      if attempt < MAX_RETRIES - 1 then
        let r := attemptLoop env (attempt + 1) fuel
        (r.1, .apiAsk attempt :: r.2)
      else (false, [.apiAsk attempt])

/-- `process_single_file` (`generate_labels.py` lines 78-146): the returned
success flag and the effects performed. -/
def process_single_file (env : Env) : Bool × List Effect :=
  if env.outputExists then (true, [])
  else
    match env.readContent with
    | none => (false, [])
    | some content =>
      if (SplitLargeHeaders.pyStrip content.toList).isEmpty then (false, [])
      else attemptLoop env 0 MAX_RETRIES

end GenerateLabels

namespace MainScript

/-!
Model of `is_valid_json_file` (`main.py` lines 158-169) and
`process_and_save_sample` (`main.py` lines 344-470).  LLM calls, the Swift
analyzer and prompt formatting are external; as in `GenerateLabels` they
enter as an environment of oracles and the function's visible behaviour is
the ordered list of effects it performs.
-/

/-- A file as observed through `exists()` / `stat().st_size` /
`read_text()` (`none` when reading raises). -/
structure FileStat where
  present : Bool
  size : Nat
  readText : Option String

/-- `is_valid_json_file(file_path)` (`main.py` lines 158-169);
`jsonLoadsOk` tells whether `json.loads` succeeds on the stripped content. -/
def is_valid_json_file (f : FileStat) (jsonLoadsOk : String → Bool) : Bool :=
  if !f.present || f.size ≤ 10 then false
  else
    match f.readText with
    | none => false
    | some content =>
      let c := String.mk (SplitLargeHeaders.pyStrip content.toList)
      if c = "" then false else jsonLoadsOk c

/-- Externally visible effects of `process_and_save_sample`, in order. -/
inductive Effect
  | codeGenCall
  | writeCode (s : String)
  | analyzerCall
  | writeInput (s : String)
  | labelGenCall
  | writeLabel (s : String)
deriving DecidableEq

/-- The four task types recognised at `main.py` lines 393-424; any other
type prints a warning and returns. -/
def knownTaskType (t : String) : Bool :=
  t = "Sufficient_Positive" || t = "Insufficient_Positive" ||
  t = "Clear_Negative" || t = "Combined_Positive"

/-- The environment of one `process_and_save_sample` run. -/
structure Env where
  /-- The label file at `label_path`. -/
  labelFile : FileStat
  /-- Whether `json.loads` succeeds on a given string. -/
  jsonLoadsOk : String → Bool
  /-- `generator_type`. -/
  generatorType : String
  /-- `task["type"]`. -/
  taskType : String
  /-- `code_path.exists()`. -/
  codeFilePresent : Bool
  /-- `code_path.stat().st_size`. -/
  codeFileSize : Nat
  /-- `code_path.read_text()` (`none` when it raises). -/
  codeFileText : Option String
  /-- Result of `safe_*_code_request` (`none` for `None`). -/
  codeGenResult : Option String
  /-- Whether `code_path.write_text` succeeds. -/
  codeWriteOk : Bool
  /-- Result of `run_swift_analyzer_on_code` (`none` for `None`). -/
  analyzerResult : Option String
  /-- The formatted `label_prompt` (prompt templates are opaque here). -/
  labelPrompt : String
  /-- Whether `input_path.write_text` succeeds. -/
  inputWriteOk : Bool
  /-- Result of `safe_gemini_label_request` (`none` for `None`). -/
  labelGenResult : Option String
  /-- Whether the final `label_path.write_text` succeeds. -/
  labelWriteOk : Bool
  /-- Whether the error-marker `label_path.write_text` succeeds. -/
  errorLabelWriteOk : Bool

/-- `'{"error": "generation_failed"}'` written at `main.py` line 460. -/
def errorMarkerJson : String := "\x7b\"error\": \"generation_failed\"\x7d"

/-- Python truthiness-plus-strip test
`not swift_code or not swift_code.strip()`. -/
def strBlank (s : String) : Bool := (SplitLargeHeaders.pyStrip s.toList).isEmpty

/-- The existing Swift code loaded at `main.py` lines 370-374 / 382-388:
read only when the file exists with size `> 10`; a read failure yields
`""`. -/
def loadedCode (env : Env) : String :=
  if env.codeFilePresent && decide (10 < env.codeFileSize) then
    match env.codeFileText with
    | some s => s
    | none => ""
  else ""

/-- The tail of `process_and_save_sample` from the AST analysis on
(`main.py` lines 438-470): analyzer call, input-prompt save, label
generation and label save, each with its early return. -/
def afterCode (env : Env) : List Effect :=
  Effect.analyzerCall ::
    match env.analyzerResult with
    | none => []
    | some sym =>
      if sym = "" then []
      else if env.inputWriteOk then
        Effect.writeInput env.labelPrompt ::
          Effect.labelGenCall ::
            match env.labelGenResult with
            | none => if env.errorLabelWriteOk then [Effect.writeLabel errorMarkerJson] else []
            | some final =>
              if final = "" then
                if env.errorLabelWriteOk then [Effect.writeLabel errorMarkerJson] else []
              else if env.labelWriteOk then [Effect.writeLabel final]
              else []
      else []

/-- `process_and_save_sample` (`main.py` lines 344-470): the effects
performed, in order. -/
def process_and_save_sample (env : Env) : List Effect :=
  if is_valid_json_file env.labelFile env.jsonLoadsOk then []
  else
    let code0 := loadedCode env
    if "old_".toList.isPrefixOf env.generatorType.toList then
      if strBlank code0 then [] else afterCode env
    else if strBlank code0 then
      if env.generatorType = "gemini" ∨ env.generatorType = "claude" then
        if knownTaskType env.taskType then
          match env.codeGenResult with
          | none => [Effect.codeGenCall]
          | some code =>
            if strBlank code then [Effect.codeGenCall]
            else if env.codeWriteOk then
              Effect.codeGenCall :: Effect.writeCode code :: afterCode env
            else [Effect.codeGenCall]
        else []
      else []
    else afterCode env

end MainScript

namespace SplitLargeHeaders

theorem byteLen_append (a b : Line) : byteLen (a ++ b) = byteLen a + byteLen b := by
  simp [byteLen]

theorem byteLen_flatten_cons (l : Line) (ls : List Line) :
    byteLen ((l :: ls).flatten) = byteLen l + byteLen ls.flatten := by
  simp [byteLen]

/-- Two `Bool`-valued predicates that agree on a list give equal `any`. -/
theorem any_congr_mem {α : Type} (l : List α) (f g : α → Bool)
    (h : ∀ a ∈ l, f a = g a) : l.any f = l.any g := by
  induction l with
  | nil => rfl
  | cons x xs ih =>
    simp only [List.any_cons, h x (by simp)]
    rw [ih fun a ha => h a (by simp [ha])]

/-- A line strips to nothing exactly when all its characters are whitespace. -/
theorem pyStrip_isEmpty_iff (l : Line) :
    (pyStrip l).isEmpty = true ↔ ∀ c ∈ l, pyIsSpace c = true := by
  unfold pyStrip
  rw [List.isEmpty_iff, List.reverse_eq_nil_iff, List.dropWhile_eq_nil_iff]
  constructor
  · intro h c hc
    have hc' : c ∈ l.takeWhile pyIsSpace ++ l.dropWhile pyIsSpace := by
      rw [List.takeWhile_append_dropWhile]; exact hc
    rcases List.mem_append.mp hc' with h1 | h2
    · exact List.mem_takeWhile_imp h1
    · exact h c (List.mem_reverse.mpr h2)
  · intro h c hc
    exact h c ((List.dropWhile_sublist pyIsSpace).mem (List.mem_reverse.mp hc))

/-- `is_safe_split_location` returns `true` only when there is a preceding
line and its stripped content matches one of the safe end patterns. -/
theorem is_safe_requires_safe_end (lines : List Line) (i : Nat)
    (h : is_safe_split_location lines i = true) :
    0 < i ∧ matchesSafeEndPattern (pyStrip (lines.getD (i - 1) [])) = true := by
  unfold is_safe_split_location at h
  split at h
  · exact absurd h (by simp)
  · split at h
    · exact absurd h (by simp)
    · split at h
      · next hi => exact ⟨hi, h⟩
      · exact absurd h (by simp)

/-- `is_safe_split_location` returns `false` as soon as one of the up to two
immediately preceding lines is non-blank and matches an unsafe pattern. -/
theorem is_safe_rejects_unsafe_prev (lines : List Line) (i j : Nat)
    (h1 : i - 2 ≤ j) (h2 : j < i)
    (h3 : (pyStrip (lines.getD j [])).isEmpty = false)
    (h4 : matchesUnsafePattern (pyStrip (lines.getD j [])) = true) :
    is_safe_split_location lines i = false := by
  unfold is_safe_split_location
  split
  · rfl
  · have hc : (List.range' (i - 2) (min i 2)).any (fun j =>
        let p := pyStrip (lines.getD j [])
        !p.isEmpty && matchesUnsafePattern p) = true := by
      refine List.any_eq_true.mpr ⟨j, ?_, ?_⟩
      · rw [List.mem_range'_1]
        omega
      · show (!(pyStrip (lines.getD j [])).isEmpty
            && matchesUnsafePattern (pyStrip (lines.getD j []))) = true
        rw [h3, h4]
        rfl
    rw [if_pos hc]

/-- `is_safe_split_location` never inspects lines after the candidate: it is
unchanged when everything past index `i` is replaced, as long as at least one
line follows. -/
theorem is_safe_ignores_following (pre s1 s2 : List Line) (i : Nat)
    (hl : pre.length = i + 1) (h1 : s1 ≠ []) (h2 : s2 ≠ []) :
    is_safe_split_location (pre ++ s1) i = is_safe_split_location (pre ++ s2) i := by
  have key : ∀ (s : List Line) (k : Nat), k ≤ i → (pre ++ s).getD k [] = pre.getD k [] := by
    intro s k hk
    have hk' : k < pre.length := by omega
    rw [List.getD_eq_getElem?_getD, List.getD_eq_getElem?_getD,
      List.getElem?_append_left hk']
  have hlen : ∀ (s : List Line), s ≠ [] → ¬ ((pre ++ s).length ≤ i) := by
    intro s hs
    have : 0 < s.length := List.length_pos.mpr hs
    simp only [List.length_append]
    omega
  have d1 : decide ((pre ++ s1).length ≤ i) = false := decide_eq_false (hlen s1 h1)
  have d2 : decide ((pre ++ s2).length ≤ i) = false := decide_eq_false (hlen s2 h2)
  unfold is_safe_split_location
  rw [key s1 i le_rfl, key s2 i le_rfl, d1, d2]
  cases hb : isBlankLine (pre.getD i []) with
  | false => simp only [hb, Bool.not_false, Bool.or_true, if_true]
  | true =>
    simp only [hb, Bool.not_true, Bool.or_false, Bool.false_eq_true, if_false]
    have hany : (List.range' (i - 2) (min i 2)).any (fun j =>
        let p := pyStrip ((pre ++ s1).getD j [])
        !p.isEmpty && matchesUnsafePattern p) =
      (List.range' (i - 2) (min i 2)).any (fun j =>
        let p := pyStrip ((pre ++ s2).getD j [])
        !p.isEmpty && matchesUnsafePattern p) := by
      refine any_congr_mem _ _ _ fun j hj => ?_
      rw [List.mem_range'_1] at hj
      have hji : j ≤ i := by omega
      show (!(pyStrip ((pre ++ s1).getD j [])).isEmpty
          && matchesUnsafePattern (pyStrip ((pre ++ s1).getD j []))) =
        (!(pyStrip ((pre ++ s2).getD j [])).isEmpty
          && matchesUnsafePattern (pyStrip ((pre ++ s2).getD j [])))
      rw [key s1 j hji, key s2 j hji]
    rw [hany]
    by_cases hc : (List.range' (i - 2) (min i 2)).any (fun j =>
        let p := pyStrip ((pre ++ s2).getD j [])
        !p.isEmpty && matchesUnsafePattern p) = true
    · rw [if_pos hc, if_pos hc]
    · rw [if_neg hc, if_neg hc]
      rcases Nat.eq_zero_or_pos i with hi | hi
      · subst hi
        rw [if_neg (by omega), if_neg (by omega)]
      · rw [key s1 (i - 1) (by omega), key s2 (i - 1) (by omega)]

end SplitLargeHeaders

/-- C3: the claim states that `is_safe_split_location` inspects a context
window of lines both before AND after the candidate and rejects when any
line in it matches an unsafe pattern.  Counterexample: in
`"a;\n" "\n" "foo(\n"` the line after the blank candidate (index 2) ends in
an open parenthesis — an unsafe pattern — yet the split at index 1 is
accepted.  (The source computes `context_lines` over the window but never
reads it; only the two preceding lines are checked.) -/
theorem claim3_counterexample :
    SplitLargeHeaders.is_safe_split_location
      (SplitLargeHeaders.splitlinesKeepends "a;\n\nfoo(\n".toList) 1 = true ∧
    SplitLargeHeaders.matchesUnsafePattern
      (SplitLargeHeaders.pyStrip
        ((SplitLargeHeaders.splitlinesKeepends "a;\n\nfoo(\n".toList).getD 2 [])) = true := by
  constructor <;> decide

/-- C3 (amended): the safety check inspects only the up to two lines
immediately preceding the candidate — it rejects the split when any of them
is non-blank and matches an unsafe pattern (continued declaration ending in
comma, backslash or star, open parenthesis, open brace, multi-line comment
interior, Carbon event arrow, or a `Parameters:`/`Discussion:`/`Result:`
doc-comment header) — and it never inspects the lines after the candidate. -/
theorem claim3_amended_window :
    (∀ (lines : List SplitLargeHeaders.Line) (i j : Nat), i - 2 ≤ j → j < i →
      (SplitLargeHeaders.pyStrip (lines.getD j [])).isEmpty = false →
      SplitLargeHeaders.matchesUnsafePattern
        (SplitLargeHeaders.pyStrip (lines.getD j [])) = true →
      SplitLargeHeaders.is_safe_split_location lines i = false) ∧
    (∀ (pre s1 s2 : List SplitLargeHeaders.Line) (i : Nat),
      pre.length = i + 1 → s1 ≠ [] → s2 ≠ [] →
      SplitLargeHeaders.is_safe_split_location (pre ++ s1) i =
        SplitLargeHeaders.is_safe_split_location (pre ++ s2) i) :=
  ⟨SplitLargeHeaders.is_safe_rejects_unsafe_prev,
   SplitLargeHeaders.is_safe_ignores_following⟩

/-- Witness for C3 (amended): a concrete rejection caused by a preceding
`foo,` line, and a concrete candidate whose verdict is independent of the
line that follows it. -/
theorem claim3_witness :
    SplitLargeHeaders.is_safe_split_location
      [['x', '\n'], ['f', 'o', 'o', ',', '\n'], ['\n'], ['\n']] 3 = false ∧
    SplitLargeHeaders.is_safe_split_location
      ([['a', ';', '\n'], ['\n']] ++ [['b', '\n']]) 1 =
      SplitLargeHeaders.is_safe_split_location
        ([['a', ';', '\n'], ['\n']] ++ [['(', '\n']]) 1 :=
  ⟨claim3_amended_window.1 _ 3 1 (by decide) (by decide) (by decide) (by decide),
   claim3_amended_window.2 _ _ _ 1 (by decide) (by decide) (by decide)⟩

/-- C4: a blank candidate line is accepted by `is_safe_split_location` only
when a preceding line exists and its stripped content matches one of the
recognized terminators (`;`-terminated line, `};`, `*/`, `#endif`); with no
such match the function returns `False`. -/
theorem claim4_safe_end_required (lines : List SplitLargeHeaders.Line) (i : Nat)
    (h : SplitLargeHeaders.is_safe_split_location lines i = true) :
    0 < i ∧ SplitLargeHeaders.matchesSafeEndPattern
      (SplitLargeHeaders.pyStrip (lines.getD (i - 1) [])) = true :=
  SplitLargeHeaders.is_safe_requires_safe_end lines i h

/-- Witness for C4: the accepted split after `aaaa;` in a concrete file. -/
theorem claim4_witness :
    0 < 1 ∧ SplitLargeHeaders.matchesSafeEndPattern
      (SplitLargeHeaders.pyStrip
        ((SplitLargeHeaders.splitlinesKeepends "aaaa;\n\nbbbbbb\n".toList).getD 0 [])) = true :=
  claim4_safe_end_required (SplitLargeHeaders.splitlinesKeepends "aaaa;\n\nbbbbbb\n".toList) 1
    (by decide)

namespace VerifyJsonl

theorem verifyLoop_invalid_mono (d : Bool) (dec iss : String → Bool) :
    ∀ (ls : List String) (st : Counts),
      st.invalid ≤ (verifyLoop d dec iss ls st).invalid := by
  intro ls
  induction ls with
  | nil => intro st; exact le_rfl
  | cons l rest ih =>
    intro st
    obtain ⟨t, e, v, inv, si⟩ := st
    simp only [verifyLoop]
    split
    · exact ih ⟨t + 1, e + 1, v, inv, si⟩
    · split
      · split
        · exact ih ⟨t + 1, e, v + 1, inv, si + 1⟩
        · exact ih ⟨t + 1, e, v + 1, inv, si⟩
      · split
        · exact Nat.le_succ _
        · exact le_trans (Nat.le_succ _) (ih ⟨t + 1, e, v, inv + 1, si⟩)

theorem verifyLoop_total_pos (d : Bool) (dec iss : String → Bool)
    (l : String) (rest : List String) (st : Counts) :
    0 < (verifyLoop d dec iss (l :: rest) st).total := by
  have tmono : ∀ (ls : List String) (st : Counts),
      st.total ≤ (verifyLoop d dec iss ls st).total := by
    intro ls
    induction ls with
    | nil => intro st; exact le_rfl
    | cons x xs ih =>
      intro st
      obtain ⟨t, e, v, inv, si⟩ := st
      simp only [verifyLoop]
      split
      · exact le_trans (Nat.le_succ _) (ih ⟨t + 1, e + 1, v, inv, si⟩)
      · split
        · split
          · exact le_trans (Nat.le_succ _) (ih ⟨t + 1, e, v + 1, inv, si + 1⟩)
          · exact le_trans (Nat.le_succ _) (ih ⟨t + 1, e, v + 1, inv, si⟩)
        · split
          · exact Nat.le_succ _
          · exact le_trans (Nat.le_succ _) (ih ⟨t + 1, e, v, inv + 1, si⟩)
  obtain ⟨t, e, v, inv, si⟩ := st
  simp only [verifyLoop]
  split
  · exact lt_of_lt_of_le (Nat.succ_pos t) (tmono rest ⟨t + 1, e + 1, v, inv, si⟩)
  · split
    · split
      · exact lt_of_lt_of_le (Nat.succ_pos t) (tmono rest ⟨t + 1, e, v + 1, inv, si + 1⟩)
      · exact lt_of_lt_of_le (Nat.succ_pos t) (tmono rest ⟨t + 1, e, v + 1, inv, si⟩)
    · split
      · exact Nat.succ_pos t
      · exact lt_of_lt_of_le (Nat.succ_pos t) (tmono rest ⟨t + 1, e, v, inv + 1, si⟩)

theorem verifyLoop_invalid_zero_iff (d : Bool) (dec iss : String → Bool) :
    ∀ (ls : List String) (st : Counts),
      (verifyLoop d dec iss ls st).invalid = 0 ↔
        st.invalid = 0 ∧ ∀ l ∈ ls,
          (SplitLargeHeaders.pyStrip l.toList).isEmpty = false → dec l = true := by
  intro ls
  induction ls with
  | nil => intro st; simp [verifyLoop]
  | cons l rest ih =>
    intro st
    obtain ⟨t, e, v, inv, si⟩ := st
    simp only [verifyLoop]
    by_cases hb : (SplitLargeHeaders.pyStrip l.toList).isEmpty = true
    · rw [if_pos hb, ih]
      have hb0 : SplitLargeHeaders.pyStrip l.toList = [] := List.isEmpty_iff.mp hb
      simp only [List.forall_mem_cons]
      constructor
      · intro h
        exact ⟨h.1, fun hcon => by rw [hb] at hcon; exact absurd hcon (by simp), h.2⟩
      · intro h
        exact ⟨h.1, h.2.2⟩
    · have hb' : (SplitLargeHeaders.pyStrip l.toList).isEmpty = false := by
        revert hb; cases (SplitLargeHeaders.pyStrip l.toList).isEmpty <;> simp
      rw [if_neg hb]
      by_cases hd : dec l = true
      · rw [if_pos hd]
        split
        · rw [ih]; simp [List.forall_mem_cons, hd]
        · rw [ih]; simp [List.forall_mem_cons, hd]
      · have hd' : dec l = false := by
          revert hd; cases dec l <;> simp
        rw [if_neg hd]
        split
        · refine iff_of_false (by simp) (fun hc => ?_)
          exact hd (hc.2 l (List.mem_cons_self l rest) hb')
        · refine iff_of_false (fun h0 => ?_) (fun hc => ?_)
          · have hm := verifyLoop_invalid_mono d dec iss rest ⟨t + 1, e, v, inv + 1, si⟩
            rw [h0] at hm
            exact absurd hm (by simp)
          · exact hd (hc.2 l (List.mem_cons_self l rest) hb')

end VerifyJsonl

/-- C10: `verify_jsonl_file` returns `False` for a missing file, `True` for
an empty (zero-line) file, and for a readable file it returns `True` exactly
when no parsed (non-blank) line fails JSON decoding — in particular,
structure issues found during detailed analysis never make it return
`False`, since the verdict is independent of the `issuesFound` oracle and of
the `detailed` flag. -/
theorem claim10_verify_semantics (detailed : Bool) (decodeOk issuesFound : String → Bool) :
    VerifyJsonl.verify_jsonl_file .missing detailed decodeOk issuesFound = false ∧
    VerifyJsonl.verify_jsonl_file (.content []) detailed decodeOk issuesFound = true ∧
    ∀ lines : List String,
      (VerifyJsonl.verify_jsonl_file (.content lines) detailed decodeOk issuesFound = true ↔
        ∀ l ∈ lines,
          (SplitLargeHeaders.pyStrip l.toList).isEmpty = false → decodeOk l = true) := by
  refine ⟨rfl, rfl, fun lines => ?_⟩
  cases lines with
  | nil => simp [VerifyJsonl.verify_jsonl_file, VerifyJsonl.verifyLoop]
  | cons l rest =>
    show (if _ ∧ _ then _ else _) = true ↔ _
    have htot := VerifyJsonl.verifyLoop_total_pos detailed decodeOk issuesFound l rest
      ⟨0, 0, 0, 0, 0⟩
    have hiff := VerifyJsonl.verifyLoop_invalid_zero_iff detailed decodeOk issuesFound
      (l :: rest) ⟨0, 0, 0, 0, 0⟩
    by_cases hz :
        (VerifyJsonl.verifyLoop detailed decodeOk issuesFound (l :: rest) ⟨0, 0, 0, 0, 0⟩).invalid = 0
    · rw [if_pos ⟨hz, htot⟩, ite_self]
      simp only [true_iff]
      exact ((hiff.mp hz).2)
    · rw [if_neg (fun hc => hz hc.1), if_neg (by omega)]
      refine iff_of_false (by simp) (fun hall => ?_)
      exact hz (hiff.mpr ⟨rfl, hall⟩)

/-- Witness for C10: a concrete two-line file (one decodable line, one blank
line) is verified successfully. -/
theorem claim10_witness :
    VerifyJsonl.verify_jsonl_file (.content ["x", ""]) true
      (fun l => l == "x") (fun _ => false) = true :=
  ((claim10_verify_semantics true (fun l => l == "x") (fun _ => false)).2.2
    ["x", ""]).mpr (by decide)

/-- C7: both per-file generation steps are guarded by an
output-already-exists check.  When the output label of
`generate_labels.process_single_file` exists, it reports success
and performs no API call and no write; when the label file of
`main.process_and_save_sample` is already a valid JSON file, the function
returns having performed no generation call and no write. -/
theorem claim7_idempotent_skip :
    (∀ env : GenerateLabels.Env, env.outputExists = true →
      GenerateLabels.process_single_file env = (true, [])) ∧
    (∀ env : MainScript.Env,
      MainScript.is_valid_json_file env.labelFile env.jsonLoadsOk = true →
      MainScript.process_and_save_sample env = []) := by
  constructor
  · intro env h
    unfold GenerateLabels.process_single_file
    rw [if_pos h]
  · intro env h
    unfold MainScript.process_and_save_sample
    rw [if_pos h]

/-- Witness for C7: concrete environments whose outputs already exist. -/
theorem claim7_witness :
    GenerateLabels.process_single_file
      ⟨true, none, fun _ => .otherError, fun _ => false⟩ = (true, []) ∧
    MainScript.process_and_save_sample
      ⟨⟨true, 11, some "[1]"⟩, fun _ => true, "gemini", "Clear_Negative",
        false, 0, none, none, false, none, "", false, none, false, false⟩ = [] :=
  ⟨claim7_idempotent_skip.1 _ rfl, claim7_idempotent_skip.2 _ (by decide)⟩

namespace PrepareHeaders

theorem lookupFS_cons (n c : String) (fs : FS) (k : String) :
    lookupFS ((n, c) :: fs) k = if n == k then some c else lookupFS fs k := by
  by_cases h : (n == k) = true
  · rw [if_pos h]
    unfold lookupFS
    rw [List.find?_cons_of_pos fs (show ((fun e : String × String => e.1 == k) (n, c)) = true from h)]
    rfl
  · rw [if_neg h]
    unfold lookupFS
    rw [List.find?_cons_of_neg fs
      (show ¬ ((fun e : String × String => e.1 == k) (n, c)) = true from h)]

/-- A name accepted by the fresh-name search does not yet exist. -/
theorem findFreshName_fresh (fs : FS) (c b e : String) :
    ∀ (fuel counter : Nat) (n : String),
      findFreshName fs c b e fuel counter = some (some n) → lookupFS fs n = none := by
  intro fuel
  induction fuel with
  | zero =>
    intro counter n h
    exact absurd h (by simp [findFreshName])
  | succ fuel ih =>
    intro counter n h
    simp only [findFreshName] at h
    cases hl : lookupFS fs (b ++ "_" ++ Nat.repr counter ++ e) with
    | none =>
      rw [hl] at h
      have hn : b ++ "_" ++ Nat.repr counter ++ e = n := by
        simpa using h
      rw [← hn]
      exact hl
    | some c' =>
      rw [hl] at h
      simp only [] at h
      split at h
      · exact absurd h (by simp)
      · exact ih _ _ h

/-- One iteration of the copy loop never changes the content visible at a
name that already exists. -/
theorem copyOneHeader_preserves (fs : FS) (s : String) (hf : HeaderFile)
    (k v : String) (h : lookupFS fs k = some v) :
    lookupFS (copyOneHeader fs s hf) k = some v := by
  simp only [copyOneHeader]
  cases hu : lookupFS fs (uniqueName s hf) with
  | none =>
    rw [lookupFS_cons]
    rw [if_neg ?hne]
    case hne =>
      intro he
      rw [beq_iff_eq] at he
      rw [he, h] at hu
      exact absurd hu (by simp)
    exact h
  | some c' =>
    show lookupFS
        (if c' = hf.content then fs
         else
           match findFreshName fs hf.content (pathSplitExt (uniqueName s hf)).1
               (pathSplitExt (uniqueName s hf)).2 (fs.length + 1) 1 with
           | some (some newName) => (newName, hf.content) :: fs
           | some none => fs
           | none => fs) k = some v
    by_cases hc : c' = hf.content
    · rw [if_pos hc]
      exact h
    · rw [if_neg hc]
      cases hfn : findFreshName fs hf.content (pathSplitExt (uniqueName s hf)).1
        (pathSplitExt (uniqueName s hf)).2 (fs.length + 1) 1 with
      | none => exact h
      | some o =>
        cases o with
        | none => exact h
        | some nm =>
          have hfresh := findFreshName_fresh fs hf.content _ _ _ _ _ hfn
          show lookupFS ((nm, hf.content) :: fs) k = some v
          rw [lookupFS_cons]
          rw [if_neg ?hne2]
          case hne2 =>
            intro he
            rw [beq_iff_eq] at he
            rw [he, h] at hfresh
            exact absurd hfresh (by simp)
          exact h

theorem copyDir_preserves (s : String) (hfs : List HeaderFile) (fs : FS)
    (k v : String) (h : lookupFS fs k = some v) :
    lookupFS (hfs.foldl (fun a hf => copyOneHeader a s hf) fs) k = some v := by
  induction hfs generalizing fs with
  | nil => exact h
  | cons hf rest ih =>
    simp only [List.foldl_cons]
    exact ih _ (copyOneHeader_preserves _ _ _ _ _ h)

end PrepareHeaders

/-- `Nat.toDigitsCore` agrees with `Nat.digits` for positive inputs and
sufficient fuel. -/
theorem toDigitsCore_eq_digits :
    ∀ (fuel n : Nat) (acc : List Char), 0 < n → n < fuel →
      Nat.toDigitsCore 10 fuel n acc =
        ((Nat.digits 10 n).map Nat.digitChar).reverse ++ acc := by
  intro fuel
  induction fuel with
  | zero =>
    intro n acc h1 h2
    omega
  | succ fuel ih =>
    intro n acc h1 h2
    simp only [Nat.toDigitsCore]
    by_cases hdiv : n / 10 = 0
    · rw [if_pos hdiv]
      have hn10 : n < 10 := (Nat.div_eq_zero_iff (by norm_num)).mp hdiv
      rw [Nat.digits_def' (by norm_num : (1 : Nat) < 10) h1, hdiv, Nat.digits_zero]
      simp
    · rw [if_neg hdiv]
      have hd : 0 < n / 10 := Nat.pos_of_ne_zero hdiv
      have hlt : n / 10 < fuel := by
        have := Nat.div_lt_self h1 (by norm_num : (1 : Nat) < 10)
        omega
      rw [ih (n / 10) _ hd hlt, Nat.digits_def' (by norm_num : (1 : Nat) < 10) h1]
      simp [List.append_assoc]

/-- `Nat.toDigits` of a positive number is its decimal digit characters. -/
theorem toDigits_eq_digits (n : Nat) (h : 0 < n) :
    Nat.toDigits 10 n = ((Nat.digits 10 n).map Nat.digitChar).reverse := by
  unfold Nat.toDigits
  rw [toDigitsCore_eq_digits (n + 1) n [] h (by omega)]
  simp

theorem digitChar_inj_of_lt (a b : Nat) (ha : a < 10) (hb : b < 10)
    (h : Nat.digitChar a = Nat.digitChar b) : a = b := by
  interval_cases a <;> interval_cases b <;> revert h <;> decide

theorem map_digitChar_inj :
    ∀ (l1 l2 : List Nat), (∀ x ∈ l1, x < 10) → (∀ x ∈ l2, x < 10) →
      l1.map Nat.digitChar = l2.map Nat.digitChar → l1 = l2 := by
  intro l1
  induction l1 with
  | nil =>
    intro l2 _ _ h
    cases l2 with
    | nil => rfl
    | cons y ys => simp at h
  | cons x xs ih =>
    intro l2 h1 h2 h
    cases l2 with
    | nil => simp at h
    | cons y ys =>
      simp only [List.map_cons, List.cons.injEq] at h
      have hx := digitChar_inj_of_lt x y (h1 x (List.mem_cons_self _ _))
        (h2 y (List.mem_cons_self _ _)) h.1
      rw [hx, ih ys (fun z hz => h1 z (List.mem_cons_of_mem _ hz))
        (fun z hz => h2 z (List.mem_cons_of_mem _ hz)) h.2]

/-- A positive number never renders as the single digit `0`. -/
theorem toDigits_pos_ne_zero (n : Nat) (hn : 0 < n) :
    Nat.toDigits 10 n ≠ ['0'] := by
  rw [toDigits_eq_digits n hn]
  intro hcon
  have hmap : (Nat.digits 10 n).map Nat.digitChar = ['0'] := by
    have := congrArg List.reverse hcon
    simpa using this
  cases hd : Nat.digits 10 n with
  | nil =>
    rw [hd] at hmap
    simp at hmap
  | cons d ds =>
    rw [hd] at hmap
    cases ds with
    | nil =>
      simp only [List.map_cons, List.map_nil, List.cons.injEq, List.map_eq_nil_iff] at hmap
      have hdlt : d < 10 := Nat.digits_lt_base (by norm_num)
        (by rw [hd]; exact List.mem_cons_self _ _)
      have hd0 : d = 0 := digitChar_inj_of_lt d 0 hdlt (by norm_num) hmap.1
      have hn0 : n = Nat.ofDigits 10 [0] := by
        rw [← Nat.ofDigits_digits 10 n, hd, hd0]
      simp [Nat.ofDigits] at hn0
      omega
    | cons d2 ds2 => simp at hmap

/-- Decimal rendering of naturals is injective. -/
theorem nat_repr_inj (m n : Nat) (h : Nat.repr m = Nat.repr n) : m = n := by
  have hdata : Nat.toDigits 10 m = Nat.toDigits 10 n := by
    have hd := congrArg String.data h
    simpa [Nat.repr, List.asString] using hd
  rcases Nat.eq_zero_or_pos m with rfl | hm
  · rcases Nat.eq_zero_or_pos n with rfl | hn
    · rfl
    · exact absurd hdata.symm (toDigits_pos_ne_zero n hn)
  · rcases Nat.eq_zero_or_pos n with rfl | hn
    · exact absurd hdata (toDigits_pos_ne_zero m hm)
    · rw [toDigits_eq_digits m hm, toDigits_eq_digits n hn] at hdata
      have hrev := List.reverse_injective hdata
      have hdig := map_digitChar_inj _ _
        (fun x hx => Nat.digits_lt_base (by norm_num) hx)
        (fun x hx => Nat.digits_lt_base (by norm_num) hx) hrev
      have hfin := congrArg (Nat.ofDigits 10) hdig
      rwa [Nat.ofDigits_digits, Nat.ofDigits_digits] at hfin

namespace PrepareHeaders

/-- The candidate names tried by the collision loop are pairwise distinct. -/
theorem freshName_injective (b e : String) (c1 c2 : Nat)
    (h : b ++ "_" ++ Nat.repr c1 ++ e = b ++ "_" ++ Nat.repr c2 ++ e) : c1 = c2 := by
  have hdata := congrArg String.data h
  simp only [String.data_append] at hdata
  have h1 := List.append_cancel_right hdata
  have h2 := List.append_cancel_left h1
  have h3 : Nat.repr c1 = Nat.repr c2 := congrArg String.mk h2
  exact nat_repr_inj c1 c2 h3

/-- A successful lookup means the key is present. -/
theorem lookup_some_mem (fs : FS) (k v : String) (h : lookupFS fs k = some v) :
    k ∈ fs.map Prod.fst := by
  unfold lookupFS at h
  cases hf : fs.find? (fun e => e.1 == k) with
  | none =>
    rw [hf] at h
    simp at h
  | some entry =>
    have hm := List.mem_of_find?_eq_some hf
    have hp : entry.1 = k := by simpa using List.find?_some hf
    rw [← hp]
    exact List.mem_map_of_mem Prod.fst hm

/-- If the collision loop runs out of fuel, every candidate name it tried is
an existing key. -/
theorem findFreshName_none_all (fs : FS) (c b e : String) :
    ∀ (fuel counter : Nat), findFreshName fs c b e fuel counter = none →
      ∀ j, j < fuel →
        ∃ v, lookupFS fs (b ++ "_" ++ Nat.repr (counter + j) ++ e) = some v := by
  intro fuel
  induction fuel with
  | zero =>
    intro counter h j hj
    omega
  | succ fuel ih =>
    intro counter h j hj
    simp only [findFreshName] at h
    cases hl : lookupFS fs (b ++ "_" ++ Nat.repr counter ++ e) with
    | none =>
      rw [hl] at h
      simp at h
    | some c' =>
      rw [hl] at h
      simp only [] at h
      split at h
      · simp at h
      · cases j with
        | zero => exact ⟨c', hl⟩
        | succ j =>
          obtain ⟨v, hv⟩ := ih (counter + 1) h j (by omega)
          refine ⟨v, ?_⟩
          rw [show counter + (j + 1) = counter + 1 + j by omega]
          exact hv

/-- `fs.length + 1` units of fuel always suffice for the collision loop:
its fuel-exhausted branch is dead code.  (Pigeonhole: the candidate names
are pairwise distinct, and a destination directory with `fs.length` entries
cannot contain `fs.length + 1` distinct names.) -/
theorem findFreshName_fuel_sufficient (fs : FS) (c b e : String) :
    findFreshName fs c b e (fs.length + 1) 1 ≠ none := by
  intro hnone
  have hall := findFreshName_none_all fs c b e (fs.length + 1) 1 hnone
  have hcard : fs.length + 1 ≤ ((fs.map Prod.fst).toFinset).card := by
    have hmapsto : ∀ j ∈ (Finset.univ : Finset (Fin (fs.length + 1))),
        (b ++ "_" ++ Nat.repr (1 + j.1) ++ e) ∈ (fs.map Prod.fst).toFinset := by
      intro j _
      obtain ⟨v, hv⟩ := hall j.1 j.2
      rw [List.mem_toFinset]
      exact lookup_some_mem fs _ v hv
    have hinj : Set.InjOn (fun j : Fin (fs.length + 1) => b ++ "_" ++ Nat.repr (1 + j.1) ++ e)
        ↑(Finset.univ : Finset (Fin (fs.length + 1))) := by
      intro x _ y _ hxy
      have := freshName_injective b e (1 + x.1) (1 + y.1) hxy
      exact Fin.ext (by omega)
    have hle := Finset.card_le_card_of_injOn _ hmapsto hinj
    simpa using hle
  have hge : ((fs.map Prod.fst).toFinset).card ≤ fs.length := by
    have h1 := List.toFinset_card_le (fs.map Prod.fst)
    simpa using h1
  omega

end PrepareHeaders

/-- C9: `find_and_copy_headers` never overwrites an existing destination
file: a file present in the destination before the run is still present with
the same content afterwards.  (Every copy happens at a name the function has
just checked to be absent — either the unique name itself or a fresh
`_1`, `_2`, ... suffixed name; equal-content collisions are skipped.) -/
theorem claim9_no_overwrite (srcDirs : List (String × List PrepareHeaders.HeaderFile))
    (fs : PrepareHeaders.FS) (k v : String)
    (h : PrepareHeaders.lookupFS fs k = some v) :
    PrepareHeaders.lookupFS (PrepareHeaders.find_and_copy_headers srcDirs fs) k = some v := by
  unfold PrepareHeaders.find_and_copy_headers
  induction srcDirs generalizing fs with
  | nil => exact h
  | cons d ds ih =>
    simp only [List.foldl_cons]
    exact ih _ (PrepareHeaders.copyDir_preserves _ _ _ _ _ h)

namespace SplitLargeHeaders

theorem bool_eq_false {b : Bool} (h : ¬ b = true) : b = false := by
  cases b
  · rfl
  · exact absurd rfl h

/-- Each step of the scan either records `i+1` and resets the accumulator,
or continues with the line's bytes added. -/
theorem fsspGo_cons_cases (all : List Line) (th mp : Nat) (line : Line)
    (rest : List Line) (i sz : Nat) :
    fsspGo all th mp (line :: rest) i sz = (i + 1) :: fsspGo all th mp rest (i + 1) 0 ∨
    fsspGo all th mp (line :: rest) i sz = fsspGo all th mp rest (i + 1) (sz + byteLen line) := by
  simp only [fsspGo]
  split
  · split
    · split
      · exact Or.inl rfl
      · exact Or.inr rfl
    · exact Or.inr rfl
  · split
    · exact Or.inl rfl
    · exact Or.inr rfl

/-- Every recorded split point lies strictly beyond the scan start and
within the scanned range. -/
theorem fsspGo_mem_bounds (all : List Line) (th mp : Nat) :
    ∀ (rest : List Line) (i sz p : Nat), p ∈ fsspGo all th mp rest i sz →
      i < p ∧ p ≤ i + rest.length := by
  intro rest
  induction rest with
  | nil =>
    intro i sz p hp
    exact absurd hp (by simp [fsspGo])
  | cons line rest ih =>
    intro i sz p hp
    rcases fsspGo_cons_cases all th mp line rest i sz with hc | hc <;> rw [hc] at hp
    · rcases List.mem_cons.mp hp with rfl | hp'
      · simp only [List.length_cons]
        omega
      · obtain ⟨h1, h2⟩ := ih (i + 1) 0 p hp'
        simp only [List.length_cons]
        omega
    · obtain ⟨h1, h2⟩ := ih (i + 1) _ p hp
      simp only [List.length_cons]
      omega

/-- The recorded split points are strictly increasing. -/
theorem fsspGo_chain (all : List Line) (th mp : Nat) :
    ∀ (rest : List Line) (i sz : Nat),
      List.Chain' (· < ·) (fsspGo all th mp rest i sz) := by
  intro rest
  induction rest with
  | nil => intro i sz; simp [fsspGo]
  | cons line rest ih =>
    intro i sz
    rcases fsspGo_cons_cases all th mp line rest i sz with hc | hc <;> rw [hc]
    · rw [List.chain'_cons']
      refine ⟨fun y hy => ?_, ih (i + 1) 0⟩
      exact (fsspGo_mem_bounds all th mp rest (i + 1) 0 y (List.mem_of_mem_head? hy)).1
    · exact ih (i + 1) _

theorem joinSlice_refl (all : List Line) (q : Nat) : joinSlice all q q = [] := by
  simp [joinSlice]

theorem joinSlice_succ (all : List Line) (q i : Nat) (hq : q ≤ i) (hi : i < all.length) :
    joinSlice all q (i + 1) = joinSlice all q i ++ all.getD i [] := by
  unfold joinSlice
  have h1 : i + 1 - q = (i - q) + 1 := by omega
  rw [h1, List.take_succ, List.flatten_append]
  congr 1
  have h2 : (all.drop q)[i - q]? = some (all.get ⟨i, hi⟩) := by
    rw [List.getElem?_drop]
    have h3 : q + (i - q) = i := by omega
    rw [h3]
    rw [List.getElem?_eq_getElem hi]
    rfl
  rw [h2, List.getD_eq_getElem all [] hi]
  simp [List.get_eq_getElem]

theorem byteLen_joinSlice_succ (all : List Line) (q i : Nat)
    (hq : q ≤ i) (hi : i < all.length) :
    byteLen (joinSlice all q (i + 1)) =
      byteLen (joinSlice all q i) + byteLen (all.getD i []) := by
  rw [joinSlice_succ all q i hq hi, byteLen_append]

/-- Unfolding one firing step of the scan over `all.drop i`. -/
theorem fsspGo_drop_step_fire (all : List Line) (th mp i sz : Nat) (h : i < all.length)
    (hf : stepFires all th mp i (sz + byteLen (all.getD i [])) = true) :
    fsspGo all th mp (all.drop i) i sz =
      (i + 1) :: fsspGo all th mp (all.drop (i + 1)) (i + 1) 0 := by
  have hd : all.drop i = all.getD i [] :: all.drop (i + 1) := by
    rw [List.getD_eq_getElem all [] h]
    exact List.drop_eq_getElem_cons h
  rw [hd]
  simp only [fsspGo]
  unfold stepFires at hf
  by_cases h1 : (decide (7 * th ≤ 10 * (sz + byteLen (all.getD i [])))
      && isBlankLine (all.getD i [])) = true
  · rw [if_pos h1] at hf
    obtain ⟨hsafe, hrem⟩ := (Bool.and_eq_true _ _).mp hf
    rw [if_pos h1, if_pos hsafe, if_pos hrem]
  · rw [if_neg h1] at hf
    rw [if_neg h1, if_pos (of_decide_eq_true hf)]

/-- Unfolding one non-firing step of the scan over `all.drop i`. -/
theorem fsspGo_drop_step_skip (all : List Line) (th mp i sz : Nat) (h : i < all.length)
    (hf : stepFires all th mp i (sz + byteLen (all.getD i [])) = false) :
    fsspGo all th mp (all.drop i) i sz =
      fsspGo all th mp (all.drop (i + 1)) (i + 1) (sz + byteLen (all.getD i [])) := by
  have hd : all.drop i = all.getD i [] :: all.drop (i + 1) := by
    rw [List.getD_eq_getElem all [] h]
    exact List.drop_eq_getElem_cons h
  rw [hd]
  simp only [fsspGo]
  unfold stepFires at hf
  by_cases h1 : (decide (7 * th ≤ 10 * (sz + byteLen (all.getD i [])))
      && isBlankLine (all.getD i [])) = true
  · rw [if_pos h1] at hf
    by_cases hsafe : is_safe_split_location all i = true
    · rw [hsafe, Bool.true_and] at hf
      rw [if_pos h1, if_pos hsafe, if_neg (by rw [hf]; simp)]
    · rw [if_pos h1, if_neg hsafe]
  · rw [if_neg h1] at hf
    rw [if_neg h1, if_neg (of_decide_eq_false hf)]

/-- What holds at a line where the loop body records a split: at a blank
line the safe-branch conditions hold, at a non-blank line the hard-split
threshold was reached. -/
theorem stepFires_props (all : List Line) (th mp i sz' : Nat)
    (hs : stepFires all th mp i sz' = true) :
    (isBlankLine (all.getD i []) = true →
      is_safe_split_location all i = true ∧ 7 * th ≤ 10 * sz' ∧
      (byteLen ((all.drop (i + 1)).flatten) = 0 ∨
        mp ≤ byteLen ((all.drop (i + 1)).flatten))) ∧
    (isBlankLine (all.getD i []) = false → 13 * th ≤ 10 * sz') := by
  unfold stepFires at hs
  constructor
  · intro hb
    rw [hb, Bool.and_true] at hs
    by_cases h7 : 7 * th ≤ 10 * sz'
    · rw [if_pos (decide_eq_true h7)] at hs
      obtain ⟨hsafe, hrem⟩ := (Bool.and_eq_true _ _).mp hs
      refine ⟨hsafe, h7, ?_⟩
      rcases (Bool.or_eq_true _ _).mp hrem with h | h
      · exact Or.inl (of_decide_eq_true h)
      · exact Or.inr (of_decide_eq_true h)
    · rw [if_neg (by simpa using h7)] at hs
      have := of_decide_eq_true hs
      omega
  · intro hb
    rw [hb, Bool.and_false] at hs
    rw [if_neg (by simp)] at hs
    exact of_decide_eq_true hs

/-- Soundness of the scan: for every adjacent pair `(q, p)` of recorded
split points (with `q` the previous point or the scan origin), the loop-body
conditions held at line `p - 1` with the accumulator equal to the bytes of
`lines[q:p]`. -/
theorem fssp_pairs_sound (all : List Line) (th mp : Nat) :
    ∀ (n i q : Nat), all.length - i ≤ n → q ≤ i →
      ∀ pr ∈ List.zip (q :: fsspGo all th mp (all.drop i) i (byteLen (joinSlice all q i)))
          (fsspGo all th mp (all.drop i) i (byteLen (joinSlice all q i))),
        (isBlankLine (all.getD (pr.2 - 1) []) = true →
          is_safe_split_location all (pr.2 - 1) = true ∧
          7 * th ≤ 10 * byteLen (joinSlice all pr.1 pr.2) ∧
          (byteLen ((all.drop pr.2).flatten) = 0 ∨
            mp ≤ byteLen ((all.drop pr.2).flatten))) ∧
        (isBlankLine (all.getD (pr.2 - 1) []) = false →
          13 * th ≤ 10 * byteLen (joinSlice all pr.1 pr.2)) := by
  intro n
  induction n with
  | zero =>
    intro i q hn hq pr hpr
    rw [List.drop_eq_nil_of_le (by omega)] at hpr
    simp [fsspGo] at hpr
  | succ n ih =>
    intro i q hn hq pr hpr
    by_cases hi : i < all.length
    · have hacc : byteLen (joinSlice all q i) + byteLen (all.getD i []) =
          byteLen (joinSlice all q (i + 1)) :=
        (byteLen_joinSlice_succ all q i hq hi).symm
      by_cases hs : stepFires all th mp i
          (byteLen (joinSlice all q i) + byteLen (all.getD i [])) = true
      · rw [fsspGo_drop_step_fire all th mp i _ hi hs, List.zip_cons_cons] at hpr
        rcases List.mem_cons.mp hpr with rfl | hpr'
        · have hprops := stepFires_props all th mp i _ hs
          rw [hacc] at hprops
          exact hprops
        · have h0 : byteLen (joinSlice all (i + 1) (i + 1)) = 0 := by
            rw [joinSlice_refl]
            rfl
          have hih := ih (i + 1) (i + 1) (by omega) le_rfl
          rw [h0] at hih
          exact hih pr hpr'
      · rw [fsspGo_drop_step_skip all th mp i _ hi (bool_eq_false hs), hacc] at hpr
        exact ih (i + 1) q (by omega) (by omega) pr hpr
    · rw [List.drop_eq_nil_of_le (by omega)] at hpr
      simp [fsspGo] at hpr

/-- `fssp_pairs_sound` specialised to the whole run of
`find_safe_split_points`. -/
theorem fssp_pairs_spec (lines : List Line) (th mp : Nat) :
    ∀ pr ∈ List.zip (0 :: find_safe_split_points lines th mp)
        (find_safe_split_points lines th mp),
      (isBlankLine (lines.getD (pr.2 - 1) []) = true →
        is_safe_split_location lines (pr.2 - 1) = true ∧
        7 * th ≤ 10 * byteLen (joinSlice lines pr.1 pr.2) ∧
        (byteLen ((lines.drop pr.2).flatten) = 0 ∨
          mp ≤ byteLen ((lines.drop pr.2).flatten))) ∧
      (isBlankLine (lines.getD (pr.2 - 1) []) = false →
        13 * th ≤ 10 * byteLen (joinSlice lines pr.1 pr.2)) := by
  have h := fssp_pairs_sound lines th mp lines.length 0 0 (by omega) le_rfl
  have h0 : byteLen (joinSlice lines 0 0) = 0 := by
    rw [joinSlice_refl]
    rfl
  rw [h0, List.drop_zero] at h
  exact h

/-- Every element of a list is the second component of an adjacent pair. -/
theorem mem_zip_head {α : Type} (q : α) (l : List α) (x : α) (hx : x ∈ l) :
    ∃ pr ∈ List.zip (q :: l) l, pr.2 = x := by
  induction l generalizing q with
  | nil => cases hx
  | cons a as ih =>
    rcases List.mem_cons.mp hx with rfl | hx'
    · exact ⟨(q, x), by rw [List.zip_cons_cons]; exact List.mem_cons_self _ _, rfl⟩
    · obtain ⟨pr, hm, he⟩ := ih a hx'
      exact ⟨pr, by rw [List.zip_cons_cons]; exact List.mem_cons_of_mem _ hm, he⟩

/-- Once a split point `q'` is recorded, the scan continues exactly as a
fresh scan from `q'`; every point of that continuation is in the output. -/
theorem fssp_continuation (all : List Line) (th mp : Nat) :
    ∀ (n i sz q' : Nat), all.length - i ≤ n →
      q' ∈ fsspGo all th mp (all.drop i) i sz →
      ∀ x ∈ fsspGo all th mp (all.drop q') q' 0,
        x ∈ fsspGo all th mp (all.drop i) i sz := by
  intro n
  induction n with
  | zero =>
    intro i sz q' hn hq'
    rw [List.drop_eq_nil_of_le (by omega)] at hq'
    simp [fsspGo] at hq'
  | succ n ih =>
    intro i sz q' hn hq' x hx
    by_cases hi : i < all.length
    · by_cases hs : stepFires all th mp i (sz + byteLen (all.getD i [])) = true
      · rw [fsspGo_drop_step_fire all th mp i _ hi hs] at hq' ⊢
        rcases List.mem_cons.mp hq' with rfl | hq''
        · exact List.mem_cons_of_mem _ hx
        · exact List.mem_cons_of_mem _ (ih (i + 1) 0 q' (by omega) hq'' x hx)
      · rw [fsspGo_drop_step_skip all th mp i _ hi (bool_eq_false hs)] at hq' ⊢
        exact ih (i + 1) _ q' (by omega) hq' x hx
    · rw [List.drop_eq_nil_of_le (by omega)] at hq'
      simp [fsspGo] at hq'

/-- If, scanning from reset point `q`, no step fires strictly before line
`j` and the step at `j` fires, then `j + 1` is recorded by the scan started
at `q`. -/
theorem fssp_first_fire (all : List Line) (th mp : Nat) :
    ∀ (n i q j : Nat), all.length - i ≤ n → q ≤ i → i ≤ j → j < all.length →
      (∀ j', i ≤ j' → j' < j →
        stepFires all th mp j' (byteLen (joinSlice all q (j' + 1))) = false) →
      stepFires all th mp j (byteLen (joinSlice all q (j + 1))) = true →
      (j + 1) ∈ fsspGo all th mp (all.drop i) i (byteLen (joinSlice all q i)) := by
  intro n
  induction n with
  | zero =>
    intro i q j hn hq hij hj hnof hfire
    omega
  | succ n ih =>
    intro i q j hn hq hij hj hnof hfire
    have hi : i < all.length := by omega
    have hacc : byteLen (joinSlice all q i) + byteLen (all.getD i []) =
        byteLen (joinSlice all q (i + 1)) :=
      (byteLen_joinSlice_succ all q i hq hi).symm
    by_cases hij' : i = j
    · subst hij'
      rw [fsspGo_drop_step_fire all th mp i _ hi (by rw [hacc]; exact hfire)]
      exact List.mem_cons_self _ _
    · have hlt : i < j := by omega
      have hnf : stepFires all th mp i (byteLen (joinSlice all q (i + 1))) = false :=
        hnof i le_rfl hlt
      rw [fsspGo_drop_step_skip all th mp i _ hi (by rw [hacc]; exact hnf), hacc]
      exact ih (i + 1) q j (by omega) (by omega) (by omega) hj
        (fun j' h1 h2 => hnof j' (by omega) h2) hfire

end SplitLargeHeaders

/-- C2: the claim states that whenever the accumulator reaches 130% of the
threshold without a safe split, a hard split is recorded after the current
line.  Counterexample: on `"xxxxxxxxxx,\n" " \n"` with threshold 10 the
accumulator is 14 bytes (≥ 13 = 1.3 × 10) at the blank line 1, no safe split
is found there (the previous line ends in a comma), yet no split point is
recorded at all — the hard-split branch is an `elif` shadowed by the
blank-line branch, so it never fires at a blank line. -/
theorem claim2_counterexample :
    13 * 10 ≤ 10 * SplitLargeHeaders.byteLen
      (SplitLargeHeaders.joinSlice
        (SplitLargeHeaders.splitlinesKeepends "xxxxxxxxxx,\n \n".toList) 0 2) ∧
    SplitLargeHeaders.find_safe_split_points
      (SplitLargeHeaders.splitlinesKeepends "xxxxxxxxxx,\n \n".toList) 10 1 = [] := by
  decide

/-- C2 (amended): the hard-split fallback fires at every NON-BLANK line
where the accumulated byte size since the previous split point (or the file
start) is at least 1.3 times the threshold — at blank lines the safe-split
branch takes precedence and the fallback is skipped even past the 130%
mark.  Here `q` is the previous split point (or 0) with no recorded split
point in `(q, i]`, and the accumulator at line `i` is the byte size of
`lines[q:i+1]`. -/
theorem claim2_amended_hard_split_fires (lines : List SplitLargeHeaders.Line)
    (th mp i q : Nat)
    (hq : q = 0 ∨ q ∈ SplitLargeHeaders.find_safe_split_points lines th mp)
    (hqi : q ≤ i) (hi : i < lines.length)
    (hnos : ∀ r ∈ SplitLargeHeaders.find_safe_split_points lines th mp, q < r → i < r)
    (hnb : SplitLargeHeaders.isBlankLine (lines.getD i []) = false)
    (hsz : 13 * th ≤ 10 * SplitLargeHeaders.byteLen
      (SplitLargeHeaders.joinSlice lines q (i + 1))) :
    (i + 1) ∈ SplitLargeHeaders.find_safe_split_points lines th mp := by
  classical
  have hfi : SplitLargeHeaders.stepFires lines th mp i
      (SplitLargeHeaders.byteLen (SplitLargeHeaders.joinSlice lines q (i + 1))) = true := by
    unfold SplitLargeHeaders.stepFires
    rw [hnb, Bool.and_false, if_neg (by simp)]
    exact decide_eq_true hsz
  have hex : ∃ j, q ≤ j ∧ j ≤ i ∧ SplitLargeHeaders.stepFires lines th mp j
      (SplitLargeHeaders.byteLen (SplitLargeHeaders.joinSlice lines q (j + 1))) = true :=
    ⟨i, hqi, le_rfl, hfi⟩
  have hj0 := Nat.find_spec hex
  have hmin := fun m (hm : m < Nat.find hex) => Nat.find_min hex hm
  have hj0len : Nat.find hex < lines.length := by
    have := hj0.2.1
    omega
  have hmem0 : (Nat.find hex + 1) ∈ SplitLargeHeaders.fsspGo lines th mp
      (lines.drop q) q (SplitLargeHeaders.byteLen (SplitLargeHeaders.joinSlice lines q q)) := by
    refine SplitLargeHeaders.fssp_first_fire lines th mp lines.length q q (Nat.find hex)
      (by omega) le_rfl hj0.1 hj0len (fun j' h1 h2 => ?_) hj0.2.2
    refine SplitLargeHeaders.bool_eq_false (fun hf => ?_)
    exact hmin j' (by omega) ⟨h1, by omega, hf⟩
  rw [SplitLargeHeaders.joinSlice_refl] at hmem0
  have hsub : ∀ x ∈ SplitLargeHeaders.fsspGo lines th mp (lines.drop q) q 0,
      x ∈ SplitLargeHeaders.find_safe_split_points lines th mp := by
    rcases hq with rfl | hqmem
    · intro x hx
      unfold SplitLargeHeaders.find_safe_split_points
      rw [← List.drop_zero lines]
      exact hx
    · intro x hx
      unfold SplitLargeHeaders.find_safe_split_points
      rw [← List.drop_zero lines]
      refine SplitLargeHeaders.fssp_continuation lines th mp lines.length 0 0 q
        (by omega) ?_ x hx
      unfold SplitLargeHeaders.find_safe_split_points at hqmem
      rw [← List.drop_zero lines] at hqmem
      exact hqmem
  have hj0mem : (Nat.find hex + 1) ∈ SplitLargeHeaders.find_safe_split_points lines th mp :=
    hsub _ hmem0
  by_cases hji : Nat.find hex = i
  · rw [← hji]
    exact hj0mem
  · have hlt : Nat.find hex < i := by
      have := hj0.2.1
      omega
    have := hnos (Nat.find hex + 1) hj0mem (by have := hj0.1; omega)
    omega

/-- Witness for C2 (amended): on `"xxxxxxxxxxxxxx\ny\n"` with threshold 10,
the non-blank first line alone reaches 15 bytes ≥ 13 = 1.3 × 10, and the
hard split after it (point 1) is indeed recorded. -/
theorem claim2_witness :
    (0 + 1) ∈ SplitLargeHeaders.find_safe_split_points
      (SplitLargeHeaders.splitlinesKeepends "xxxxxxxxxxxxxx\ny\n".toList) 10 1000 :=
  claim2_amended_hard_split_fires
    (SplitLargeHeaders.splitlinesKeepends "xxxxxxxxxxxxxx\ny\n".toList) 10 1000 0 0
    (Or.inl rfl) le_rfl (by decide) (by decide) (by decide) (by decide)

namespace SplitLargeHeaders

theorem splitKEAux_flatten (acc l : Line) :
    (splitKEAux acc l).flatten = acc.reverse ++ l := by
  induction acc, l using splitKEAux.induct with
  | case1 acc h => simp [splitKEAux, h, List.isEmpty_iff.mp h]
  | case2 acc h => simp [splitKEAux, h]
  | case3 acc rest ih => simp [splitKEAux, ih]
  | case4 acc rest ih => simp [splitKEAux, ih]
  | case5 acc rest hne ih => simp [splitKEAux, ih, hne]
  | case6 acc c rest h1 h2 h3 ih => simp [splitKEAux, ih, h1, h2, h3]

/-- Splitting into lines with kept line endings loses nothing:
the concatenation of the lines is the original content. -/
theorem splitlines_flatten (content : Line) :
    (splitlinesKeepends content).flatten = content := by
  unfold splitlinesKeepends
  rw [splitKEAux_flatten]
  rfl

/-- The part-assembly loop equals the full segmentation with whitespace-only
segments filtered out. -/
theorem buildParts_eq_filter (lines : List Line) :
    ∀ (ps : List Nat) (start : Nat),
      buildParts lines start ps =
        (segmentsOf lines start ps).filter (fun s => !(pyStrip s).isEmpty) := by
  intro ps
  induction ps with
  | nil =>
    intro start
    simp only [buildParts, segmentsOf]
    by_cases h : start < lines.length
    · rw [if_pos h, if_pos h, List.filter_cons, List.filter_nil]
    · rw [if_neg h, if_neg h]
      rfl
  | cons p ps ih =>
    intro start
    simp only [buildParts, segmentsOf]
    rw [List.filter_cons, ih]

/-- The full segmentation at ordered split points concatenates to the
suffix of the lines from the start index on. -/
theorem segmentsOf_flatten (lines : List Line) :
    ∀ (ps : List Nat) (start : Nat),
      (∀ p ∈ ps, start ≤ p) →
      List.Pairwise (· ≤ ·) ps →
      (segmentsOf lines start ps).flatten = (lines.drop start).flatten := by
  intro ps
  induction ps with
  | nil =>
    intro start h1 h2
    simp only [segmentsOf]
    by_cases h : start < lines.length
    · rw [if_pos h]
      simp
    · rw [if_neg h]
      rw [List.drop_eq_nil_of_le (by omega)]
  | cons p ps ih =>
    intro start h1 h2
    simp only [segmentsOf, List.flatten_cons]
    obtain ⟨hhead, htail⟩ := List.pairwise_cons.mp h2
    rw [ih p hhead htail]
    have hsp : start ≤ p := h1 p (List.mem_cons_self _ _)
    unfold joinSlice
    rw [show lines.drop p = (lines.drop start).drop (p - start) from ?_]
    · rw [← List.flatten_append, List.take_append_drop]
    · rw [List.drop_drop]
      congr 1
      omega

/-- The recorded split points, in order, are monotone. -/
theorem fssp_pairwise_le (lines : List Line) (th mp : Nat) :
    List.Pairwise (· ≤ ·) (find_safe_split_points lines th mp) :=
  (List.chain'_iff_pairwise.mp (fsspGo_chain lines th mp lines 0 0)).imp
    (fun hab => le_of_lt hab)

end SplitLargeHeaders

/-- C1: the claim states that the concatenation of the chunks returned by
`split_file_into_parts` always equals the original content.  Counterexample:
on `"xxxxxxxxxxxxxx\n \n"` with threshold 10 a hard split separates a final
whitespace-only segment, which the assembly loop drops, so the concatenation
is `"xxxxxxxxxxxxxx\n"` ≠ the original. -/
theorem claim1_counterexample :
    (SplitLargeHeaders.split_file_into_parts "xxxxxxxxxxxxxx\n \n".toList 10 1).flatten ≠
      "xxxxxxxxxxxxxx\n \n".toList := by
  decide

/-- C1 (amended): the returned chunks arise from a segmentation of the file
whose in-order concatenation is exactly the original content, by dropping
the whitespace-only segments (when no split point is found the single chunk
is the whole content); the concatenation equals the original whenever no
whitespace-only segment is dropped. -/
theorem claim1_amended_concat (content : SplitLargeHeaders.Line) (th mp : Nat) :
    ∃ segs : List SplitLargeHeaders.Line,
      segs.flatten = content ∧
      (SplitLargeHeaders.split_file_into_parts content th mp = segs ∨
        SplitLargeHeaders.split_file_into_parts content th mp =
          segs.filter (fun s => !(SplitLargeHeaders.pyStrip s).isEmpty)) := by
  unfold SplitLargeHeaders.split_file_into_parts
  by_cases hp : (SplitLargeHeaders.find_safe_split_points
      (SplitLargeHeaders.splitlinesKeepends content) th mp).isEmpty = true
  · refine ⟨[content], by simp, Or.inl ?_⟩
    rw [if_pos hp]
  · refine ⟨SplitLargeHeaders.segmentsOf (SplitLargeHeaders.splitlinesKeepends content) 0
      (SplitLargeHeaders.find_safe_split_points
        (SplitLargeHeaders.splitlinesKeepends content) th mp), ?_, Or.inr ?_⟩
    · rw [SplitLargeHeaders.segmentsOf_flatten _ _ 0 (fun p _ => Nat.zero_le p)
        (SplitLargeHeaders.fssp_pairwise_le _ _ _), List.drop_zero]
      exact SplitLargeHeaders.splitlines_flatten content
    · rw [if_neg hp]
      exact SplitLargeHeaders.buildParts_eq_filter _ _ 0

/-- C8: the split points are strictly increasing and lie between 1 and the
number of lines; and for positive thresholds, any content with a
non-whitespace character yields a non-empty list of parts. -/
theorem claim8_invariants (th mp : Nat) (_hth : 0 < th) (_hmp : 0 < mp) :
    (∀ lines : List SplitLargeHeaders.Line,
      List.Chain' (· < ·) (SplitLargeHeaders.find_safe_split_points lines th mp) ∧
      ∀ p ∈ SplitLargeHeaders.find_safe_split_points lines th mp,
        1 ≤ p ∧ p ≤ lines.length) ∧
    (∀ content : SplitLargeHeaders.Line,
      content.any (fun c => !(SplitLargeHeaders.pyIsSpace c)) = true →
      SplitLargeHeaders.split_file_into_parts content th mp ≠ []) := by
  constructor
  · intro lines
    refine ⟨SplitLargeHeaders.fsspGo_chain lines th mp lines 0 0, fun p hp => ?_⟩
    have := SplitLargeHeaders.fsspGo_mem_bounds lines th mp lines 0 0 p hp
    omega
  · intro content hc
    unfold SplitLargeHeaders.split_file_into_parts
    by_cases hp : (SplitLargeHeaders.find_safe_split_points
        (SplitLargeHeaders.splitlinesKeepends content) th mp).isEmpty = true
    · rw [if_pos hp]
      simp
    · rw [if_neg hp]
      intro hnil
      rw [SplitLargeHeaders.buildParts_eq_filter] at hnil
      have hall : ∀ s ∈ SplitLargeHeaders.segmentsOf
          (SplitLargeHeaders.splitlinesKeepends content) 0
          (SplitLargeHeaders.find_safe_split_points
            (SplitLargeHeaders.splitlinesKeepends content) th mp),
          (SplitLargeHeaders.pyStrip s).isEmpty = true := by
        intro s hs
        have hns := List.filter_eq_nil_iff.mp hnil s hs
        revert hns
        cases (SplitLargeHeaders.pyStrip s).isEmpty <;> simp
      have hflat : (SplitLargeHeaders.segmentsOf
          (SplitLargeHeaders.splitlinesKeepends content) 0
          (SplitLargeHeaders.find_safe_split_points
            (SplitLargeHeaders.splitlinesKeepends content) th mp)).flatten = content := by
        rw [SplitLargeHeaders.segmentsOf_flatten _ _ 0 (fun p _ => Nat.zero_le p)
          (SplitLargeHeaders.fssp_pairwise_le _ _ _), List.drop_zero]
        exact SplitLargeHeaders.splitlines_flatten content
      obtain ⟨c, hcmem, hcw⟩ := List.any_eq_true.mp hc
      rw [← hflat] at hcmem
      obtain ⟨s, hsmem, hcs⟩ := List.mem_flatten.mp hcmem
      have := (SplitLargeHeaders.pyStrip_isEmpty_iff s).mp (hall s hsmem) c hcs
      rw [this] at hcw
      exact absurd hcw (by simp)

/-- Witness for C8: the concrete split `[2]` of `"aaaa;\n\nbbbbbb\n"` is
strictly increasing and the same content yields a non-empty part list. -/
theorem claim8_witness :
    List.Chain' (· < ·)
      (SplitLargeHeaders.find_safe_split_points
        (SplitLargeHeaders.splitlinesKeepends "aaaa;\n\nbbbbbb\n".toList) 6 1) ∧
    SplitLargeHeaders.split_file_into_parts "aaaa;\n\nbbbbbb\n".toList 6 1 ≠ [] :=
  ⟨((claim8_invariants 6 1 (by decide) (by decide)).1
      (SplitLargeHeaders.splitlinesKeepends "aaaa;\n\nbbbbbb\n".toList)).1,
   (claim8_invariants 6 1 (by decide) (by decide)).2 "aaaa;\n\nbbbbbb\n".toList (by decide)⟩

/-- C5: the claim states that EVERY split point leaves a trailing remainder
of 0 or at least `min_part_bytes` bytes.  Counterexample: on
`"xxxxxxxxxxxxxx\n" "y\n"` with threshold 10 and `min_part_bytes` 1000 the
hard-split branch records split point 1 without any remainder check, leaving
a 2-byte remainder. -/
theorem claim5_counterexample :
    1 ∈ SplitLargeHeaders.find_safe_split_points
        (SplitLargeHeaders.splitlinesKeepends "xxxxxxxxxxxxxx\ny\n".toList) 10 1000 ∧
    ¬(SplitLargeHeaders.byteLen
        (((SplitLargeHeaders.splitlinesKeepends "xxxxxxxxxxxxxx\ny\n".toList).drop 1).flatten)
          = 0 ∨
      1000 ≤ SplitLargeHeaders.byteLen
        (((SplitLargeHeaders.splitlinesKeepends "xxxxxxxxxxxxxx\ny\n".toList).drop 1).flatten)) := by
  decide

/-- C5 (amended): every split point recorded by the safe (blank-line) branch
leaves a trailing remainder of 0 or at least `min_part_bytes` bytes; only the
hard-split fallback (which fires at non-blank lines) skips that check. -/
theorem claim5_amended_min_remainder (lines : List SplitLargeHeaders.Line) (th mp p : Nat)
    (hp : p ∈ SplitLargeHeaders.find_safe_split_points lines th mp)
    (hb : SplitLargeHeaders.isBlankLine (lines.getD (p - 1) []) = true) :
    SplitLargeHeaders.byteLen ((lines.drop p).flatten) = 0 ∨
      mp ≤ SplitLargeHeaders.byteLen ((lines.drop p).flatten) := by
  obtain ⟨pr, hm, he⟩ := SplitLargeHeaders.mem_zip_head 0 _ p hp
  have h := (SplitLargeHeaders.fssp_pairs_spec lines th mp pr hm).1 (by rw [he]; exact hb)
  rw [he] at h
  exact h.2.2

/-- Witness for C5 (amended): the safe split after the blank line of
`"aaaa;\n\nbbbbbb\n"` leaves a 7-byte remainder, at least `min_part_bytes`
of 1. -/
theorem claim5_witness :
    SplitLargeHeaders.byteLen
      (((SplitLargeHeaders.splitlinesKeepends "aaaa;\n\nbbbbbb\n".toList).drop 2).flatten) = 0 ∨
    1 ≤ SplitLargeHeaders.byteLen
      (((SplitLargeHeaders.splitlinesKeepends "aaaa;\n\nbbbbbb\n".toList).drop 2).flatten) :=
  claim5_amended_min_remainder _ 6 1 2 (by decide) (by decide)

/-- C6: each split point recorded by the safe branch — those that follow a
blank line — was recorded only with `is_safe_split_location` approving the
location and with the accumulated byte size since the previous split point
(or the file start) at least 70% of the threshold.  (The hard-split branch
never fires at a blank line, so blank-line split points are exactly the safe
ones.) -/
theorem claim6_safe_split_conditions (lines : List SplitLargeHeaders.Line) (th mp : Nat) :
    ∀ pr ∈ List.zip (0 :: SplitLargeHeaders.find_safe_split_points lines th mp)
        (SplitLargeHeaders.find_safe_split_points lines th mp),
      SplitLargeHeaders.isBlankLine (lines.getD (pr.2 - 1) []) = true →
      SplitLargeHeaders.is_safe_split_location lines (pr.2 - 1) = true ∧
      7 * th ≤ 10 * SplitLargeHeaders.byteLen (SplitLargeHeaders.joinSlice lines pr.1 pr.2) :=
  fun pr hpr hb =>
    ⟨((SplitLargeHeaders.fssp_pairs_spec lines th mp pr hpr).1 hb).1,
     ((SplitLargeHeaders.fssp_pairs_spec lines th mp pr hpr).1 hb).2.1⟩

/-- Witness for C6: the split at point 2 of `"aaaa;\n\nbbbbbb\n"` (threshold
6) follows a blank line, is approved by the safety check, and its segment
holds at least 70% of the threshold in bytes. -/
theorem claim6_witness :
    SplitLargeHeaders.is_safe_split_location
      (SplitLargeHeaders.splitlinesKeepends "aaaa;\n\nbbbbbb\n".toList) 1 = true ∧
    7 * 6 ≤ 10 * SplitLargeHeaders.byteLen
      (SplitLargeHeaders.joinSlice
        (SplitLargeHeaders.splitlinesKeepends "aaaa;\n\nbbbbbb\n".toList) 0 2) :=
  claim6_safe_split_conditions
    (SplitLargeHeaders.splitlinesKeepends "aaaa;\n\nbbbbbb\n".toList) 6 1
    (0, 2) (by decide) (by decide)

/-- Witness for C9: a destination holding `Pods_x.h` keeps its content when
a different `x.h` arrives from `Pods` (the new content lands at
`Pods_x_1.h`). -/
theorem claim9_witness :
    PrepareHeaders.lookupFS
      (PrepareHeaders.find_and_copy_headers
        [("Pods", [⟨"x.h", "", "NEW"⟩])] [("Pods_x.h", "v0")]) "Pods_x.h" = some "v0" :=
  claim9_no_overwrite [("Pods", [⟨"x.h", "", "NEW"⟩])] [("Pods_x.h", "v0")]
    "Pods_x.h" "v0" (by decide)
